import Mathlib

/-!  Shallow embedding of src/list.go (package list).

The Go type is `type List struct { value *[]string; length int }`.  Methods
take `interface{}` arguments and first coerce them with `cast.ToString` or
`cast.ToStringSlice`; that coercion lives in the external spf13/cast
library, so method arguments are modelled here as the already-coerced
strings.  The struct is modelled twice: `PList` inlines the backing slice
(enough for every method that reads or replaces `*d.value`), and `HList`
keeps the pointer explicit over a heap, which is what the `Copy` aliasing
facts are about.

Two Go slice subtleties matter and are modelled operationally, because the
methods `Remove` and `Insert` call `append` on prefixes of the very slice
they are iterating over or re-reading: such an `append` writes in place
into the shared backing array whenever the capacity suffices (it always
does for `append(fats[:i], fats[i+1:]...)` and for the first `append` of
`Insert` at an interior index), so later reads observe the shifted or
overwritten cells. -/

/-- The List struct with the backing slice inlined: `value` is the contents
of `*d.value`, `length` the cached `length` field set at construction and
never updated by the mutating methods. -/
structure PList where
  value : List String
  length : Int

/-- NewList: wraps the coerced string slice and caches its length. -/
def newList (val : List String) : PList :=
  ⟨val, (val.length : Int)⟩

/-- New: the fixed-point style constructor; per the spec its backing slice is
the single-element coercion of the supplied value (the coercion itself is the
external cast library), paired with an explicitly supplied length field that
is decoupled from the slice size. -/
def newFixed (coerced : String) (len : Int) : PList :=
  ⟨[coerced], len⟩

/-- Length method: returns the cached length field, never the slice size. -/
def lengthGo (d : PList) : Int :=
  d.length

/-- String method: returns the backing slice (cast.ToStringSlice is the
identity on a []string). -/
def stringGo (d : PList) : List String :=
  d.value

/-- Append: `*d.value = append(fats, str)`; the length field is untouched. -/
def appendGo (d : PList) (str : String) : PList :=
  ⟨d.value ++ [str], d.length⟩

/-- Extend: `*d.value = append(*d.value, subs...)`; the length field is
untouched. -/
def extendGo (d : PList) (subs : List String) : PList :=
  ⟨d.value ++ subs, d.length⟩

/-- Pop's effect on the backing slice: a negative index is shifted by the
cached length field (not by the true slice size), then
`append(fats[:idx], fats[idx+1:]...)` drops the cell at that position.
Out-of-range effective positions fault in Go; the theorems below restrict to
in-range ones. -/
def popVal (l : List String) (cached : Int) (idx : Int) : List String :=
  let eff := if idx < 0 then cached + idx else idx
  l.take eff.toNat ++ l.drop (eff.toNat + 1)

/-- Pop method on the struct; the length field is untouched. -/
def popGo (d : PList) (idx : Int) : PList :=
  ⟨popVal d.value d.length idx, d.length⟩

/-- One iteration of Remove's loop `for i, v := range fats`.  `fuel` counts
the remaining iterations (the range header fixes n = len(fats) iterations up
front), `i` is the current index, `arr` is the backing array of that original
header (its length stays n throughout), and `cur` is the length of the slice
header currently stored in `*d.value`.  On a match,
`append(fats[:i], fats[i+1:]...)` shifts the cells after `i` one slot left
inside the same backing array — the final cell keeps its old value — and
stores a header of length n-1. -/
def removeLoop (str : String) (n : Nat) : Nat → Nat → List String → Nat → List String × Nat
  | 0, _, arr, cur => (arr, cur)
  | fuel + 1, i, arr, cur =>
    if arr.getD i "" = str then
      removeLoop str n fuel (i + 1) (arr.take i ++ arr.drop (i + 1) ++ arr.drop (n - 1)) (n - 1)
    else
      removeLoop str n fuel (i + 1) arr cur

/-- Remove's effect on the backing slice: run the loop over all
n = len(fats) positions; the observable slice afterwards is the first `cur`
cells of the backing array. -/
def removeVal (l : List String) (str : String) : List String :=
  let res := removeLoop str l.length l.length 0 l l.length
  res.1.take res.2

/-- Remove method on the struct; the length field is untouched. -/
def removeGo (d : PList) (str : String) : PList :=
  ⟨removeVal d.value str, d.length⟩

/-- Insert's effect on the backing slice: `res := append(fats[:idx], str)`
writes `str` in place into cell `idx` of the shared backing array whenever
`idx < len(fats)` (the capacity always suffices there), so the second
`append(res, fats[idx:]...)` re-reads the overwritten cell.  `fats1` is the
content of the original header after that first write. -/
def insertVal (l : List String) (idx : Nat) (str : String) : List String :=
  let fats1 := if idx < l.length then l.take idx ++ str :: l.drop (idx + 1) else l
  (l.take idx ++ [str]) ++ fats1.drop idx

/-- Insert method on the struct; the length field is untouched. -/
def insertGo (d : PList) (idx : Nat) (str : String) : PList :=
  ⟨insertVal d.value idx str, d.length⟩

/-- The scan of inI starting at position k: first index holding s together
with a found flag, (-1, false) when s is absent. -/
def inIFrom (s : String) : List String → Nat → Int × Bool
  | [], _ => (-1, false)
  | v :: rest, i => if v = s then ((i : Int), true) else inIFrom s rest (i + 1)

/-- inI: linear scan of the backing slice from position 0. -/
def inI (l : List String) (s : String) : Int × Bool :=
  inIFrom s l 0

/-- Index method: first matching position, -1 when absent. -/
def indexGo (d : PList) (s : String) : Int :=
  (inI d.value s).1

/-- In method: the found flag of the same scan. -/
def inGo (d : PList) (s : String) : Bool :=
  (inI d.value s).2

/-- Equal on backing slices: false when the lengths differ, otherwise an
index-wise comparison of the cells. -/
def equalVal (s1 s2 : List String) : Bool :=
  if s1.length = s2.length then (s1.zip s2).all fun p => p.1 == p.2 else false

/-- Equal method: compares only the backing slices; the cached length fields
play no part. -/
def equalGo (d d2 : PList) : Bool :=
  equalVal d.value d2.value

/-- Count method: number of cells equal to the coerced value. -/
def countGo (d : PList) (str : String) : Nat :=
  d.value.countP fun v => v == str

/-- The distinct elements of l in first-insertion order: this is the key set
of the Go map d2Map that Sub builds over the concatenation. -/
def dedupFold (l : List String) : List String :=
  l.foldl (fun acc v => if v ∈ acc then acc else acc ++ [v]) []

/-- Sub's effect on the backing slices: concatenate, collect the distinct
elements into a map, rebuild a slice from the map's keys.  Go map iteration
order is unspecified, so the model fixes first-insertion order; the theorems
about Sub use only order-independent facts (element set, no duplicates). -/
def subVal (a b : List String) : List String :=
  dedupFold (a ++ b)

/-- Sub method: the result's length field is the size of the rebuilt slice. -/
def subGo (d d2 : PList) : PList :=
  ⟨subVal d.value d2.value, ((subVal d.value d2.value).length : Int)⟩

/-- Insertion of one element into an ascending list, the inductive step used
to model sort.Ints. -/
def insertSorted (x : Int) : List Int → List Int
  | [] => [x]
  | y :: ys => if x ≤ y then x :: y :: ys else y :: insertSorted x ys

/-- Model of sort.Ints: the ascending reordering of an int slice (the result
of sort.Ints is exactly that reordering, whatever algorithm produces it). -/
def sortInts : List Int → List Int
  | [] => []
  | x :: xs => insertSorted x (sortInts xs)

/-- Digit accumulator for the modelled decimal parse. -/
def decNat : Option Nat → List Char → Option Nat
  | acc, [] => acc
  | some a, c :: cs => if c.isDigit then decNat (some (a * 10 + (c.toNat - 48))) cs else none
  | none, _ :: _ => none

/-- Modelled from the spec: the external cast.ToInt coercion (the spf13/cast
library is not part of this repository; the spec only fixes best-effort
integer coercion with 0 for non-numeric text): parse an optionally negated
decimal numeral, 0 on failure. -/
def castToInt (s : String) : Int :=
  match s.data with
  | '-' :: cs =>
    match decNat (some 0) cs with
    | some m => -(m : Int)
    | none => 0
  | cs =>
    match decNat (some 0) cs with
    | some m => (m : Int)
    | none => 0

/-- Min: coerce the backing slice to ints with the (parameterised) coercion,
sort ascending, return cell 0; the model returns none exactly when the Go
code faults on an empty slice. -/
def minGo (c : String → Int) (d : PList) : Option Int :=
  match sortInts (d.value.map c) with
  | [] => none
  | x :: _ => some x

/-- Max: as Min but reading the last cell of the sorted slice. -/
def maxGo (c : String → Int) (d : PList) : Option Int :=
  (sortInts (d.value.map c)).getLast?

/-- Pointer-level model of the struct for Copy: `value` is a heap name for
the backing slice, exactly as the Go struct holds a *[]string. -/
structure HList where
  value : Nat
  length : Int

/-- The heap mapping each pointer to the slice it refers to. -/
def Heap : Type :=
  Nat → List String

/-- Heap update at one pointer. -/
def heapWrite (h : Heap) (p : Nat) (v : List String) : Heap :=
  fun q => if q = p then v else h q

/-- Copy: `&(*d.value)` is the very pointer d.value, so the new struct shares
the backing storage; only the two struct fields are duplicated. -/
def copyGo (d : HList) : HList :=
  ⟨d.value, d.length⟩

/-- Append through the heap: writes the extended slice back through the
struct's pointer. -/
def appendHeap (h : Heap) (d : HList) (str : String) : Heap :=
  heapWrite h d.value (h d.value ++ [str])

/-- String method through the heap: reads the slice via the pointer. -/
def stringHeap (h : Heap) (d : HList) : List String :=
  h d.value

theorem equalVal_iff : ∀ (s1 s2 : List String), equalVal s1 s2 = true ↔ s1 = s2 := by
  intro s1
  induction s1 with
  | nil =>
    intro s2
    cases s2 <;> simp [equalVal]
  | cons x t ih =>
    intro s2
    cases s2 with
    | nil => simp [equalVal]
    | cons y u =>
      by_cases hl : t.length = u.length
      · have h2 : ((t.zip u).all fun p => p.1 == p.2) = true ↔ t = u := by
          have h3 := ih u
          rw [equalVal, if_pos hl] at h3
          exact h3
        simp [equalVal, hl, List.zip_cons_cons, List.all_cons, h2, List.cons.injEq,
          beq_iff_eq, and_comm]
      · have hne : (x :: t) ≠ (y :: u) := by
          intro h
          apply hl
          injection h with h1 h2
          rw [h2]
        simp [equalVal, hl, hne]

theorem inIFrom_append_self (s : String) :
    ∀ (l : List String) (k : Nat), s ∉ l →
      inIFrom s (l ++ [s]) k = (((k + l.length : Nat) : Int), true) := by
  intro l
  induction l with
  | nil =>
    intro k h
    simp [inIFrom]
  | cons x t ih =>
    intro k h
    have hx : x ≠ s := by
      intro e
      exact h (by simp [e])
    have ht : s ∉ t := fun m => h (List.mem_cons_of_mem _ m)
    simp only [List.cons_append, inIFrom, if_neg hx, List.append_eq]
    rw [ih (k + 1) ht]
    have e : (k + 1) + t.length = k + (x :: t).length := by
      simp [List.length_cons]
      omega
    rw [e]

theorem mem_dedupFold_fold :
    ∀ (l acc : List String) (x : String),
      (x ∈ l.foldl (fun acc v => if v ∈ acc then acc else acc ++ [v]) acc) ↔
        x ∈ acc ∨ x ∈ l := by
  intro l
  induction l with
  | nil =>
    intro acc x
    simp
  | cons v t ih =>
    intro acc x
    simp only [List.foldl_cons]
    by_cases hv : v ∈ acc
    · rw [if_pos hv, ih]
      simp only [List.mem_cons]
      constructor
      · rintro (h | h)
        · exact Or.inl h
        · exact Or.inr (Or.inr h)
      · rintro (h | rfl | h)
        · exact Or.inl h
        · exact Or.inl hv
        · exact Or.inr h
    · rw [if_neg hv, ih]
      simp only [List.mem_append, List.mem_cons, List.mem_singleton]
      tauto

theorem nodup_dedupFold_fold :
    ∀ (l acc : List String), acc.Nodup →
      (l.foldl (fun acc v => if v ∈ acc then acc else acc ++ [v]) acc).Nodup := by
  intro l
  induction l with
  | nil =>
    intro acc h
    exact h
  | cons v t ih =>
    intro acc h
    simp only [List.foldl_cons]
    by_cases hv : v ∈ acc
    · rw [if_pos hv]
      exact ih acc h
    · rw [if_neg hv]
      apply ih
      rw [List.nodup_append]
      refine ⟨h, List.nodup_singleton v, ?_⟩
      intro a ha hb
      rw [List.mem_singleton] at hb
      subst hb
      exact hv ha

/-- C3: none of the five mutating methods writes the cached length field, so
Length() returns the same value before and after each of them, while Append
and Extend really do change the true size of the backing slice. -/
theorem mutators_leave_cached_length (d : PList) (v : String) (vs : List String)
    (i : Nat) (idx : Int) :
    lengthGo (appendGo d v) = lengthGo d ∧
    lengthGo (extendGo d vs) = lengthGo d ∧
    lengthGo (insertGo d i v) = lengthGo d ∧
    lengthGo (removeGo d v) = lengthGo d ∧
    lengthGo (popGo d idx) = lengthGo d ∧
    (appendGo d v).value.length = d.value.length + 1 ∧
    (extendGo d vs).value.length = d.value.length + vs.length := by
  refine ⟨rfl, rfl, rfl, rfl, rfl, ?_, ?_⟩ <;> simp [appendGo, extendGo]

/-- C4: Copy duplicates only the struct fields and keeps the very same
backing-slice pointer and cached length, so an Append performed through
either the original or the copy is visible through the other one's
String(). -/
theorem copy_aliases_storage (h : Heap) (d : HList) (v : String) :
    (copyGo d).length = d.length ∧
    (copyGo d).value = d.value ∧
    stringHeap (appendHeap h (copyGo d) v) d = stringHeap h d ++ [v] ∧
    stringHeap (appendHeap h d v) (copyGo d) = stringHeap h (copyGo d) ++ [v] := by
  refine ⟨rfl, rfl, ?_, ?_⟩ <;> simp [stringHeap, appendHeap, heapWrite, copyGo]

/-- C2: Pop drops the cell at the effective index, and a negative index is
resolved against the cached length field, not against the true slice size;
on a 3-element slice with an accurate cached length, Pop(-1) drops the last
element, while with a stale cached length 3 on a 4-element slice Pop(-1)
drops the stale-derived cell at position 2. -/
theorem pop_uses_cached_length (d : PList) (idx : Int)
    (h0 : 0 ≤ (if idx < 0 then d.length + idx else idx))
    (h1 : (if idx < 0 then d.length + idx else idx).toNat < d.value.length) :
    (popGo d idx).value
        = d.value.eraseIdx (if idx < 0 then d.length + idx else idx).toNat ∧
    (popGo d idx).length = d.length ∧
    (popGo ⟨["a", "b", "c"], 3⟩ (-1)).value = ["a", "b"] ∧
    (popGo ⟨["a", "b", "c", "d"], 3⟩ (-1)).value = ["a", "b", "d"] := by
  refine ⟨?_, rfl, rfl, rfl⟩
  rw [List.eraseIdx_eq_take_drop_succ]
  rfl

theorem pop_uses_cached_length_witness :
    (popGo ⟨["a", "b", "c"], 3⟩ (-1)).value
        = (["a", "b", "c"] : List String).eraseIdx
            (if (-1 : Int) < 0 then (3 : Int) + (-1) else (-1)).toNat :=
  (pop_uses_cached_length ⟨["a", "b", "c"], 3⟩ (-1) (by decide) (by decide)).1

/-- C5: the element set of A.Sub(B) is the set union of the two operands'
element sets and the result carries no duplicate elements; its order (Go map
iteration order) is unspecified and nothing here depends on it. -/
theorem sub_is_dedup_union (d d2 : PList) :
    (subGo d d2).value.toFinset = d.value.toFinset ∪ d2.value.toFinset ∧
    (subGo d d2).value.Nodup := by
  constructor
  · ext a
    simp [subGo, subVal, dedupFold, mem_dedupFold_fold, List.mem_append]
  · exact nodup_dedupFold_fold _ [] List.nodup_nil

/-- C10: Equal reads only the backing slices: two structs holding the same
slice compare equal whatever their cached length fields report through
Length(), including structs built by the fixed-point constructor New with
arbitrary length fields. -/
theorem equal_ignores_cached_length (v : List String) (s : String) (n m : Int) :
    equalGo ⟨v, n⟩ ⟨v, m⟩ = true ∧
    lengthGo (⟨v, n⟩ : PList) = n ∧
    lengthGo (⟨v, m⟩ : PList) = m ∧
    equalGo (newFixed s n) (newFixed s m) = true := by
  refine ⟨(equalVal_iff v v).mpr rfl, rfl, rfl, (equalVal_iff [s] [s]).mpr rfl⟩

/-- C8: Equal is reflexive and symmetric, and it is sensitive to both the
order and the length of the backing slices, independently of the cached
length fields. -/
theorem equal_refl_symm_sensitive (d e : PList) (a b : String)
    (n1 n2 n3 n4 n5 : Int) (hab : a ≠ b) :
    equalGo d d = true ∧
    equalGo d e = equalGo e d ∧
    equalGo ⟨[a, b], n1⟩ ⟨[b, a], n2⟩ = false ∧
    equalGo ⟨[a, b], n3⟩ ⟨[a, b], n4⟩ = true ∧
    equalGo ⟨[a], n5⟩ ⟨[a, a], n1⟩ = false := by
  refine ⟨(equalVal_iff _ _).mpr rfl, ?_, ?_, (equalVal_iff _ _).mpr rfl, ?_⟩
  · rw [Bool.eq_iff_iff, equalGo, equalGo, equalVal_iff, equalVal_iff]
    exact eq_comm
  · have hne : ([a, b] : List String) ≠ [b, a] := by
      intro h
      injection h with h1 h2
      exact hab h1
    have := (equalVal_iff [a, b] [b, a]).not
    rw [equalGo]
    by_contra hcon
    rw [Bool.not_eq_false] at hcon
    exact hne ((equalVal_iff _ _).mp hcon)
  · have hne : ([a] : List String) ≠ [a, a] := by
      intro h
      have := congrArg List.length h
      simp at this
    rw [equalGo]
    by_contra hcon
    rw [Bool.not_eq_false] at hcon
    exact hne ((equalVal_iff _ _).mp hcon)

theorem equal_refl_symm_sensitive_witness :
    equalGo ⟨["x", "y"], 0⟩ ⟨["y", "x"], 0⟩ = false :=
  (equal_refl_symm_sensitive ⟨[], 0⟩ ⟨[], 0⟩ "x" "y" 0 0 0 0 0 (by decide)).2.2.1

/-- C7 fails as stated: appending a value whose coercion is already present
leaves Index at the earlier first occurrence, not at the last position. -/
theorem append_index_counterexample :
    (appendGo ⟨["a"], 1⟩ "a").value = ["a", "a"] ∧
    indexGo (appendGo ⟨["a"], 1⟩ "a") "a" = 0 ∧
    (0 : Int) ≠ (["a", "a"] : List String).length - 1 := by
  refine ⟨rfl, rfl, by decide⟩

/-- C7 amended: Index returns the first matching position, so immediately
after Append(v) it returns the new last valid position (new true size minus
one) exactly when v's coercion was not already present in the slice. -/
theorem append_index_amended (d : PList) (v : String) (h : v ∉ d.value) :
    indexGo (appendGo d v) v = (d.value.length : Int) ∧
    (appendGo d v).value.length = d.value.length + 1 := by
  constructor
  · have e := inIFrom_append_self v d.value 0 h
    rw [indexGo, appendGo, inI]
    simp only at e
    rw [e]
    simp
  · simp [appendGo]

theorem append_index_amended_witness :
    indexGo (appendGo ⟨["b"], 1⟩ "a") "a" = ((["b"] : List String).length : Int) ∧
    (appendGo ⟨["b"], 1⟩ "a").value.length = (["b"] : List String).length + 1 :=
  append_index_amended ⟨["b"], 1⟩ "a" (by decide)

/-- C6 fails as stated: inserting "z" at index 1 of ["x","y"] yields
["x","z","z"], not the claimed shifted sequence ["x","z","y"]. -/
theorem insert_shift_counterexample :
    insertVal ["x", "y"] 1 "z" = ["x", "z", "z"] ∧
    (["x", "z", "z"] : List String) ≠ ["x", "z", "y"] := by
  exact ⟨rfl, by decide⟩

/-- C6 amended: for 0 <= index <= size, Insert grows the true size by one,
keeps the prefix before index and the cached length field, and for
index = size it correctly appends the coerced value; but for index < size
the first in-place append overwrites the cell at index inside the shared
backing array before the second append re-reads it, so the coerced value
appears at both positions index and index+1 and the original element at
index is lost (elements after index are kept, not shifted). -/
theorem insert_overwrites (d : PList) (idx : Nat) (v : String)
    (hle : idx ≤ d.value.length) :
    (insertGo d idx v).value.length = d.value.length + 1 ∧
    (insertGo d idx v).length = d.length ∧
    (idx = d.value.length → (insertGo d idx v).value = d.value ++ [v]) ∧
    (idx < d.value.length →
      (insertGo d idx v).value
        = d.value.take idx ++ v :: v :: d.value.drop (idx + 1)) := by
  have hval : (insertGo d idx v).value
      = if idx < d.value.length then d.value.take idx ++ v :: v :: d.value.drop (idx + 1)
        else d.value ++ [v] := by
    by_cases hlt : idx < d.value.length
    · rw [if_pos hlt]
      simp only [insertGo, insertVal, if_pos hlt]
      have hlen : (d.value.take idx).length = idx := by
        rw [List.length_take]
        omega
      rw [List.drop_left' hlen]
      simp
    · rw [if_neg hlt]
      simp only [insertGo, insertVal, if_neg hlt]
      rw [List.drop_eq_nil_of_le (by omega), List.append_nil,
        List.take_of_length_le (by omega)]
  refine ⟨?_, rfl, ?_, ?_⟩
  · rw [hval]
    by_cases hlt : idx < d.value.length
    · rw [if_pos hlt]
      simp only [List.length_append, List.length_take, List.length_cons, List.length_drop]
      omega
    · rw [if_neg hlt]
      simp
  · intro he
    rw [hval, if_neg (by omega)]
  · intro hlt
    rw [hval, if_pos hlt]

theorem insert_overwrites_witness :
    (insertGo ⟨["x", "y"], 2⟩ 1 "z").value
      = (["x", "y"] : List String).take 1 ++ "z" :: "z" :: (["x", "y"] : List String).drop 2 :=
  (insert_overwrites ⟨["x", "y"], 2⟩ 1 "z" (by decide)).2.2.2 (by decide)

theorem getD_ne_of_not_mem {l : List String} {s : String} (h : s ∉ l)
    {j : Nat} (hj : j < l.length) : l.getD j "" ≠ s := by
  rw [List.getD_eq_getElem l "" hj]
  intro hEq
  exact h (hEq ▸ List.getElem_mem hj)

theorem removeLoop_no_match (str : String) (n : Nat) :
    ∀ (fuel i : Nat) (arr : List String) (cur : Nat),
      (∀ j, i ≤ j → j < i + fuel → arr.getD j "" ≠ str) →
      removeLoop str n fuel i arr cur = (arr, cur) := by
  intro fuel
  induction fuel with
  | zero =>
    intro i arr cur h
    rfl
  | succ k ih =>
    intro i arr cur h
    have hne : arr.getD i "" ≠ str := h i le_rfl (by omega)
    simp only [removeLoop, if_neg hne]
    exact ih (i + 1) arr cur fun j hj1 hj2 => h j (by omega) (by omega)

theorem removeLoop_skip (str : String) (n : Nat) :
    ∀ (k fuel i : Nat) (arr : List String) (cur : Nat),
      k ≤ fuel →
      (∀ j, i ≤ j → j < i + k → arr.getD j "" ≠ str) →
      removeLoop str n fuel i arr cur = removeLoop str n (fuel - k) (i + k) arr cur := by
  intro k
  induction k with
  | zero =>
    intro fuel i arr cur hk h
    simp
  | succ m ih =>
    intro fuel i arr cur hk h
    cases fuel with
    | zero => omega
    | succ f =>
      have hne : arr.getD i "" ≠ str := h i le_rfl (by omega)
      simp only [removeLoop, if_neg hne]
      have e1 : f + 1 - (m + 1) = f - m := by omega
      have e2 : i + (m + 1) = (i + 1) + m := by omega
      rw [e1, e2]
      exact ih f (i + 1) arr cur (by omega) fun j hj1 hj2 => h j (by omega) (by omega)

theorem removeVal_not_mem_eq (l : List String) (str : String) (h : str ∉ l) :
    removeVal l str = l := by
  simp only [removeVal]
  rw [removeLoop_no_match str l.length l.length 0 l l.length
    (fun j hj1 hj2 => getD_ne_of_not_mem h (by omega))]
  simp

theorem removeVal_single (pre suf : List String) (str : String)
    (hpre : str ∉ pre) (hsuf : str ∉ suf) :
    removeVal (pre ++ str :: suf) str = pre ++ suf := by
  have hn : (pre ++ str :: suf).length = pre.length + suf.length + 1 := by
    simp [List.length_append]
    omega
  simp only [removeVal]
  rw [hn]
  have hskip := removeLoop_skip str (pre.length + suf.length + 1) pre.length
    (pre.length + suf.length + 1) 0 (pre ++ str :: suf) (pre.length + suf.length + 1)
    (by omega)
    (by
      intro j hj1 hj2
      have hjp : j < pre.length := by omega
      rw [List.getD_append pre (str :: suf) "" j hjp]
      exact getD_ne_of_not_mem hpre hjp)
  rw [hskip]
  have e3 : pre.length + suf.length + 1 - pre.length = suf.length + 1 := by omega
  have e4 : 0 + pre.length = pre.length := by omega
  rw [e3, e4]
  have hguard : (pre ++ str :: suf).getD pre.length "" = str := by
    rw [List.getD_append_right pre (str :: suf) "" pre.length le_rfl]
    simp
  simp only [removeLoop, if_pos hguard]
  have e5 : pre.length + suf.length + 1 - 1 = pre.length + suf.length := by omega
  rw [e5]
  have htake : (pre ++ str :: suf).take pre.length = pre := List.take_left' rfl
  have hdrop1 : (pre ++ str :: suf).drop (pre.length + 1) = suf := by
    have hd : List.drop (pre.length + 1) (pre ++ str :: suf) = List.drop 1 (str :: suf) :=
      List.drop_append 1
    rw [hd]
    rfl
  have hdrop2 : (pre ++ str :: suf).drop (pre.length + suf.length)
      = List.drop suf.length (str :: suf) :=
    List.drop_append suf.length
  rw [htake, hdrop1, hdrop2]
  have hrest := removeLoop_no_match str (pre.length + suf.length + 1) suf.length
    (pre.length + 1) (pre ++ suf ++ List.drop suf.length (str :: suf))
    (pre.length + suf.length)
    (by
      intro j hj1 hj2
      by_cases hcase : j < pre.length + suf.length
      · have hlen : (pre ++ suf).length = pre.length + suf.length := by simp
        have hg1 : (pre ++ suf ++ List.drop suf.length (str :: suf)).getD j ""
            = (pre ++ suf).getD j "" :=
          List.getD_append (pre ++ suf) (List.drop suf.length (str :: suf)) "" j
            (by omega)
        have hg2 : (pre ++ suf).getD j "" = suf.getD (j - pre.length) "" :=
          List.getD_append_right pre suf "" j (by omega)
        rw [hg1, hg2]
        exact getD_ne_of_not_mem hsuf (by omega)
      · have hj : j = pre.length + suf.length := by omega
        have hs1 : 1 ≤ suf.length := by omega
        have hlen : (pre ++ suf).length = pre.length + suf.length := by simp
        have hg1 : (pre ++ suf ++ List.drop suf.length (str :: suf)).getD j ""
            = (List.drop suf.length (str :: suf)).getD (j - (pre.length + suf.length)) "" := by
          have := List.getD_append_right (pre ++ suf) (List.drop suf.length (str :: suf)) "" j
            (by omega)
          rw [this, hlen]
        rw [hg1]
        obtain ⟨m, hm⟩ := Nat.exists_eq_add_of_le hs1
        have hdm : List.drop suf.length (str :: suf) = List.drop m suf := by
          rw [hm]
          have : 1 + m = m + 1 := by omega
          rw [this]
          rfl
        rw [hdm]
        have hml : (List.drop m suf).length = 1 := by
          rw [List.length_drop]
          omega
        have hj0 : j - (pre.length + suf.length) = 0 := by omega
        rw [hj0]
        have h0 : 0 < (List.drop m suf).length := by omega
        rw [List.getD_eq_getElem _ "" h0]
        intro hEq
        exact hsuf (hEq ▸ List.drop_subset m suf (List.getElem_mem h0)))
  rw [hrest]
  have hlen : (pre ++ suf).length = pre.length + suf.length := by simp
  exact List.take_left' hlen

/-- C1 fails as stated: removing "a" from ["a","b","a","c"] does not leave
the other elements unchanged — the loop keeps scanning past the first
removal over the shifted backing array, removes the duplicate too and
re-reads the stale final cell, yielding ["b","c","c"] instead of
["b","a","c"]. -/
theorem remove_first_only_counterexample :
    removeVal ["a", "b", "a", "c"] "a" = ["b", "c", "c"] ∧
    (["b", "c", "c"] : List String) ≠ ["b", "a", "c"] :=
  ⟨rfl, by decide⟩

/-- C1 amended: Remove deletes exactly the first matching element and leaves
the others unchanged in order whenever the value occurs at most once in the
backing slice, and it is a no-op when no element matches; the spec's
concrete example [a,b,a] with value a still yields [b,a], but with other
duplicate layouts the loop corrupts the tail (see the counterexample). -/
theorem remove_amended (l pre suf : List String) (str : String) :
    (str ∉ l → removeVal l str = l) ∧
    (str ∉ pre → str ∉ suf → removeVal (pre ++ str :: suf) str = pre ++ suf) ∧
    removeVal ["a", "b", "a"] "a" = ["b", "a"] :=
  ⟨fun h => removeVal_not_mem_eq l str h,
   fun h1 h2 => removeVal_single pre suf str h1 h2,
   rfl⟩

theorem remove_amended_witness :
    removeVal ["q"] "a" = ["q"] ∧ removeVal ["x", "a", "y"] "a" = ["x", "y"] :=
  ⟨(remove_amended ["q"] [] [] "a").1 (by decide),
   (remove_amended [] ["x"] ["y"] "a").2.1 (by decide) (by decide)⟩

theorem insertSorted_perm (x : Int) (l : List Int) : (insertSorted x l).Perm (x :: l) := by
  induction l with
  | nil => simp [insertSorted]
  | cons y ys ih =>
    simp only [insertSorted]
    by_cases h : x ≤ y
    · rw [if_pos h]
    · rw [if_neg h]
      exact (List.Perm.cons y ih).trans (List.Perm.swap x y ys)

theorem insertSorted_sorted (x : Int) :
    ∀ l : List Int, l.Sorted (· ≤ ·) → (insertSorted x l).Sorted (· ≤ ·) := by
  intro l
  induction l with
  | nil =>
    intro h
    simp [insertSorted]
  | cons y ys ih =>
    intro h
    rw [List.sorted_cons] at h
    obtain ⟨hy, hys⟩ := h
    simp only [insertSorted]
    by_cases hxy : x ≤ y
    · rw [if_pos hxy, List.sorted_cons]
      constructor
      · intro b hb
        rcases List.mem_cons.mp hb with rfl | hb2
        · exact hxy
        · exact le_trans hxy (hy b hb2)
      · rw [List.sorted_cons]
        exact ⟨hy, hys⟩
    · rw [if_neg hxy, List.sorted_cons]
      constructor
      · intro b hb
        rcases (insertSorted_perm x ys).mem_iff.mp hb with hb2
        rcases List.mem_cons.mp hb2 with rfl | hb3
        · exact le_of_lt (lt_of_not_le hxy)
        · exact hy b hb3
      · exact ih hys

theorem sortInts_perm : ∀ l : List Int, (sortInts l).Perm l := by
  intro l
  induction l with
  | nil => simp [sortInts]
  | cons x xs ih => exact (insertSorted_perm x (sortInts xs)).trans (List.Perm.cons x ih)

theorem sortInts_sorted : ∀ l : List Int, (sortInts l).Sorted (· ≤ ·) := by
  intro l
  induction l with
  | nil => simp [sortInts]
  | cons x xs ih => exact insertSorted_sorted x (sortInts xs) ih

theorem mem_of_getLast?_int : ∀ (l : List Int) (m : Int), l.getLast? = some m → m ∈ l := by
  intro l
  induction l with
  | nil =>
    intro m h
    simp at h
  | cons x t ih =>
    intro m h
    cases t with
    | nil =>
      simp at h
      simp [h]
    | cons y u =>
      rw [List.getLast?_cons_cons] at h
      exact List.mem_cons_of_mem x (ih m h)

theorem sorted_le_getLast : ∀ l : List Int, l.Sorted (· ≤ ·) →
    ∀ m : Int, l.getLast? = some m → ∀ x ∈ l, x ≤ m := by
  intro l
  induction l with
  | nil =>
    intro _ m hm
    simp at hm
  | cons a t ih =>
    intro hs m hm x hx
    rw [List.sorted_cons] at hs
    obtain ⟨ha, ht⟩ := hs
    cases t with
    | nil =>
      simp at hm
      subst hm
      rcases List.mem_singleton.mp hx with rfl
      exact le_refl x
    | cons y u =>
      rw [List.getLast?_cons_cons] at hm
      rcases List.mem_cons.mp hx with rfl | hx2
      · exact ha m (mem_of_getLast?_int (y :: u) m hm)
      · exact ih ht m hm x hx2

/-- C9: on a non-empty backing slice, Min returns the least and Max the
greatest of the elements' integer coercions (for any coercion, in
particular the modelled cast.ToInt); the spec's concrete scenario on
["3","1","2"] gives Min 1 and Max 3; on an empty slice both models return
none, mirroring the index-out-of-range fault of the Go code. -/
theorem min_max_of_coercions (c : String → Int) (d : PList) (h : d.value ≠ []) :
    (∃ m, minGo c d = some m ∧ m ∈ d.value.map c ∧ ∀ x ∈ d.value.map c, m ≤ x) ∧
    (∃ m, maxGo c d = some m ∧ m ∈ d.value.map c ∧ ∀ x ∈ d.value.map c, x ≤ m) ∧
    minGo castToInt (newList ["3", "1", "2"]) = some 1 ∧
    maxGo castToInt (newList ["3", "1", "2"]) = some 3 ∧
    minGo c ⟨[], 0⟩ = none ∧
    maxGo c ⟨[], 0⟩ = none := by
  have hmapne : d.value.map c ≠ [] := fun e => h (List.map_eq_nil_iff.mp e)
  have hperm := sortInts_perm (d.value.map c)
  have hsne : sortInts (d.value.map c) ≠ [] := by
    intro e
    have hl := hperm.length_eq
    rw [e] at hl
    exact hmapne (List.length_eq_zero.mp hl.symm)
  obtain ⟨b, L, hbl⟩ := List.exists_cons_of_ne_nil hsne
  refine ⟨?_, ?_, rfl, rfl, rfl, rfl⟩
  · refine ⟨b, ?_, ?_, ?_⟩
    · simp only [minGo]
      rw [hbl]
    · exact hperm.mem_iff.mp (by rw [hbl]; simp)
    · intro x hx
      have hxs : x ∈ sortInts (d.value.map c) := hperm.mem_iff.mpr hx
      have hsorted := sortInts_sorted (d.value.map c)
      rw [hbl, List.sorted_cons] at hsorted
      rw [hbl] at hxs
      rcases List.mem_cons.mp hxs with rfl | hx2
      · exact le_refl x
      · exact hsorted.1 x hx2
  · have hlast : ∃ m, (sortInts (d.value.map c)).getLast? = some m := by
      cases e : (sortInts (d.value.map c)).getLast? with
      | none => exact absurd (List.getLast?_eq_none_iff.mp e) hsne
      | some m => exact ⟨m, rfl⟩
    obtain ⟨m, hm⟩ := hlast
    refine ⟨m, hm, ?_, ?_⟩
    · exact hperm.mem_iff.mp (mem_of_getLast?_int _ m hm)
    · intro x hx
      exact sorted_le_getLast _ (sortInts_sorted _) m hm x (hperm.mem_iff.mpr hx)

theorem min_max_of_coercions_witness :
    (∃ m, minGo castToInt (newList ["3", "1", "2"]) = some m ∧
        m ∈ (newList ["3", "1", "2"]).value.map castToInt ∧
        ∀ x ∈ (newList ["3", "1", "2"]).value.map castToInt, m ≤ x) ∧
    (∃ m, maxGo castToInt (newList ["3", "1", "2"]) = some m ∧
        m ∈ (newList ["3", "1", "2"]).value.map castToInt ∧
        ∀ x ∈ (newList ["3", "1", "2"]).value.map castToInt, x ≤ m) ∧
    minGo castToInt (newList ["3", "1", "2"]) = some 1 ∧
    maxGo castToInt (newList ["3", "1", "2"]) = some 3 ∧
    minGo castToInt ⟨[], 0⟩ = none ∧
    maxGo castToInt ⟨[], 0⟩ = none :=
  min_max_of_coercions castToInt (newList ["3", "1", "2"]) (by decide)
